import Mathlib

set_option maxRecDepth 100000

/-!
# Verification of the epub_reader terminal e-book reader

A shallow embedding of `src/main.rs` (the single source file of the
repository): the `App` state machine, its key-event transitions, the
parallel page-extraction pipeline, the reading-time computation, and the
JSON-backed progress store.  Machine integers (`u16`, `u32`) are embedded
as `Nat` with explicit `% 2 ^ w` at the operations where the source can
overflow; fallible operations (slice indexing, JSON parsing) return
`Option`.
-/

/-! ## Decimal digits (model of Rust's integer `Display`, used by
`format!` in `show_reading_time` and by `serde_json` for `u16` values) -/

/-- The character for the decimal digit `d` (`d < 10`). -/
def digitChar (d : Nat) : Char := Char.ofNat (48 + d)

/-- Emit the decimal digits of `n` (most significant first) in front of
`acc`.  Structural fuel: `fuel ≥ n` suffices since `n` has at most `n`
digits for `n ≥ 1`. -/
def natToCharsGo : Nat → Nat → List Char → List Char
  | 0, _, acc => acc
  | fuel + 1, n, acc =>
    if n = 0 then acc else natToCharsGo fuel (n / 10) (digitChar (n % 10) :: acc)

/-- Decimal representation of `n`, as Rust's `Display` for unsigned
integers prints it (no sign, no leading zeros, `"0"` for zero). -/
def natToChars (n : Nat) : List Char :=
  if n = 0 then [digitChar 0] else natToCharsGo n n []

/-- Decimal representation of `n` as a string. -/
def natToString (n : Nat) : String := String.mk (natToChars n)

/-- `'0' ≤ c ≤ '9'`, the digit test of a JSON number. -/
def isDigitChar (c : Char) : Prop := 48 ≤ c.toNat ∧ c.toNat ≤ 57

instance (c : Char) : Decidable (isDigitChar c) := by
  unfold isDigitChar; infer_instance

/-! ## Word counting (model of `str::split_whitespace().count()` in
`App::calculate_reading_time`, line 230) -/

/-- Count maximal whitespace-free runs.  The flag records whether the
previous character belonged to a word. -/
def countWordsGo : Bool → List Char → Nat
  | _, [] => 0
  | inWord, c :: cs =>
    if c.isWhitespace then countWordsGo false cs
    else (if inWord then 0 else 1) + countWordsGo true cs

/-- Number of whitespace-delimited tokens of `s`, as
`s.split_whitespace().count()` computes it. -/
def countWords (s : String) : Nat := countWordsGo false s.data

/-- `n` copies of the word `"a"`, each followed by a space. -/
def mkWordsChars : Nat → List Char
  | 0 => []
  | n + 1 => 'a' :: ' ' :: mkWordsChars n

/-- A page text containing exactly `n` whitespace-delimited words. -/
def mkWords (n : Nat) : String := String.mk (mkWordsChars n)

/-! ## IEEE-754 binary32 model

`App::calculate_reading_time` (line 231) computes
`(word_count as f32 / self.wpm as f32 * 60.0).ceil() as u32`.  We model
each `f32` intermediate as an exact rational `num / den` and each
operation as the exact result rounded to the nearest binary32 value
(round-to-nearest, ties-to-even).  The model covers the normal finite
range, which contains every value reachable from a `usize` word count
and a non-zero `u16` words-per-minute (the smallest magnitude is
`1 / 65535`, far above the subnormal threshold; the largest is below
`2 ^ 71`, far below overflow). -/

/-- Floor of the base-2 logarithm, by structural fuel; exact for every
`n < 2 ^ 256`, which covers all scaled significands in this model. -/
def log2fuel : Nat → Nat → Nat
  | 0, _ => 0
  | fuel + 1, n => if 2 ≤ n then log2fuel fuel (n / 2) + 1 else 0

/-- `⌊log2 n⌋` for `1 ≤ n < 2 ^ 256`. -/
def floorLog2 (n : Nat) : Nat := log2fuel 256 n

/-- Round the positive rational `a / b` to the nearest binary32 value
(ties to even), returned as an exact fraction `(num, den)`.  The biased
exponent `L` satisfies `2 ^ (L - 64) ≤ a / b < 2 ^ (L - 63)`; the
significand `m ∈ [2 ^ 23, 2 ^ 24)` is the rounding of
`a / b · 2 ^ (87 - L)`. -/
def f32roundPos (a b : Nat) : Nat × Nat :=
  if a = 0 then (0, 1) else
  let L := floorLog2 (a * 2 ^ 64 / b)
  let N := if L ≤ 87 then a * 2 ^ (87 - L) else a
  let D := if L ≤ 87 then b else b * 2 ^ (L - 87)
  let m0 := N / D
  let r := N % D
  let m1 := if D < 2 * r ∨ (2 * r = D ∧ m0 % 2 = 1) then m0 + 1 else m0
  let p := if m1 = 2 ^ 24 then (2 ^ 23, L + 1) else (m1, L)
  if 87 ≤ p.2 then (p.1 * 2 ^ (p.2 - 87), 1) else (p.1, 2 ^ (87 - p.2))

/-- The reading-time computation of `App::calculate_reading_time`
(line 231) as a function of the word count `w` and the words-per-minute
value `r`: `(w as f32 / r as f32 * 60.0).ceil() as u32`.  Each `as f32`
conversion and each arithmetic operation rounds to binary32; the final
`as u32` cast saturates.  For `r = 0` the division yields `+∞` (cast
saturates to `2 ^ 32 - 1`) when `w > 0` and `NaN` (cast yields `0`)
when `w = 0`, per Rust float-to-int cast semantics. -/
def readingTimeFromCount (w r : Nat) : Nat :=
  if r = 0 then (if w = 0 then 0 else 2 ^ 32 - 1)
  else
    let wf := f32roundPos w 1
    let rf := f32roundPos r 1
    let q := f32roundPos (wf.1 * rf.2) (wf.2 * rf.1)
    let c := f32roundPos (q.1 * 60) q.2
    min ((c.1 + c.2 - 1) / c.2) (2 ^ 32 - 1)

/-- The exact formula claimed by the spec:
`ceil(wordCount / wordsPerMinute * 60)` over the rationals, for
`r > 0`. -/
def ceilReadingTime (w r : Nat) : Nat := (60 * w + r - 1) / r

/-! ## The `App` state (struct `App`, lines 36–50) -/

/-- The mutable application state of `struct App` (lines 36–50).
`u16` fields are embedded as `Nat`; the `HashMap<String, u16>` progress
map and the `HashMap<String, Vec<String>>` metadata map are embedded as
association lists in iteration order. -/
structure App where
  content : List String
  text : String
  page : Nat
  pages : Nat
  path : String
  wpm : Nat
  exit : Bool
  scroll_offset : Nat
  progress : List (String × Nat)
  popup_text : Option String
  show_metadata : Option String
  metadata : List (String × List String)
deriving DecidableEq

/-- The key events dispatched by `App::handle_key_event` (lines 168–183):
character keys, the four arrow keys, and every other key. -/
inductive KeyCode where
  | char (c : Char)
  | left
  | right
  | up
  | down
  | other
deriving DecidableEq

/-- `App::calculate_reading_time` (lines 229–233). -/
def App.calculate_reading_time (a : App) : Nat :=
  readingTimeFromCount (countWords a.text) a.wpm

/-- `App::show_reading_time` (lines 236–242): format the reading time
into the popup text.  The Rust `format!` string is
`"Estimated reading time: ... seconds (WPM: ...) \n\n\n Press <C> to close pop-up!"`. -/
def App.show_reading_time (a : App) : App :=
  { a with popup_text := some ("Estimated reading time: " ++
      natToString a.calculate_reading_time ++ " seconds (WPM: " ++
      natToString a.wpm ++ ") \n\n\n Press <C> to close pop-up!") }

/-- `App::format_metadata` (lines 250–257): one fragment
`"\n {key}:  {values.join(", ")}\n"` per metadata entry, then the
closing hint. -/
def App.format_metadata (a : App) : String :=
  (a.metadata.foldl
    (fun acc kv =>
      acc ++ "\n " ++ kv.1 ++ ":  " ++ String.intercalate ", " kv.2 ++ "\n")
    "") ++ "\n\n\nPress <C> to close pop-up!"

/-- `App::show_metadata` the method (lines 244–247); named
`show_metadata_popup` here because the Rust struct field of the same
name is also embedded. -/
def App.show_metadata_popup (a : App) : App :=
  { a with show_metadata := some a.format_metadata }

/-- `App::next_page` (lines 190–196).  `self.pages - 1` and
`self.page + 1` are `u16` arithmetic, wrapping modulo `2 ^ 16`
(release-profile semantics).  The indexing `self.content[page]` panics
when out of bounds, modeled as `none`. -/
def App.next_page (a : App) : Option App :=
  if a.page ≠ (a.pages + 65535) % 65536 then
    let p := (a.page + 1) % 65536
    match a.content[p]? with
    | some t => some { a with page := p, text := t, scroll_offset := 0 }
    | none => none
  else some a

/-- `App::previous_page` (lines 199–205). -/
def App.previous_page (a : App) : Option App :=
  if a.page ≠ 0 then
    let p := a.page - 1
    match a.content[p]? with
    | some t => some { a with page := p, text := t, scroll_offset := 0 }
    | none => none
  else some a

/-- `App::scroll_up` (lines 207–211). -/
def App.scroll_up (a : App) : App :=
  if 0 < a.scroll_offset then { a with scroll_offset := a.scroll_offset - 1 }
  else a

/-- `App::scroll_down` (lines 213–215): `self.scroll_offset += 1` in
`u16` arithmetic, wrapping modulo `2 ^ 16` (release-profile
semantics). -/
def App.scroll_down (a : App) : App :=
  { a with scroll_offset := (a.scroll_offset + 1) % 65536 }

/-- `App::handle_key_event` (lines 168–183). -/
def App.handle_key_event (a : App) (k : KeyCode) : Option App :=
  match k with
  | .char c =>
    if c = 'q' then some { a with exit := true }
    else if c = 's' then some a.show_reading_time
    else if c = 'c' then some { a with popup_text := none, show_metadata := none }
    else if c = 'm' then some a.show_metadata_popup
    else some a
  | .left => a.previous_page
  | .right => a.next_page
  | .up => some a.scroll_up
  | .down => some a.scroll_down
  | .other => some a

/-! ## Session seeding (`App::run`, lines 114–115) -/

/-- Line 114: `self.page = *self.progress.get(&path).unwrap_or(&0)` —
the resumed page index for `path`, defaulting to 0. -/
def seedPage (progress : List (String × Nat)) (path : String) : Nat :=
  (progress.lookup path).getD 0

/-- Line 115: `self.text = self.content[self.page as usize].clone()` —
the indexing panics when the index is out of bounds, modeled as
`none`. -/
def seedText (content : List String) (page : Nat) : Option String :=
  content[page]?

/-! ## The extraction pipeline (`App::run`, lines 102–110)

The source maps `(0..num_pages).into_par_iter()` over a rayon worker
pool; each task `i` opens its own `EpubDoc` handle, reads page `i`'s raw
markup and applies `extract_text_from_xhtml`; `collect()` assembles the
results by index.  The markup extractor and the per-handle page oracle
are external collaborators (scraper and the epub crate), embedded as
opaque functions `ext : String → String` and `markup : Nat → String`.
The parallel execution is modeled by an arbitrary completion order
`schedule` of the tasks: each completing task writes its result into
the output slot of its own index, and the final sequence is assembled
in index order — exactly rayon's indexed `collect`. -/

/-- Write-once output slot update: task `i` stores its result `v`. -/
def writeSlot (slots : Nat → Option String) (i : Nat) (v : String) :
    Nat → Option String :=
  fun j => if j = i then some v else slots j

/-- Run the extraction tasks in completion order `schedule`; task `i`
computes `ext (markup i)` and writes it to slot `i`. -/
def runTasks (ext : String → String) (markup : Nat → String) :
    List Nat → (Nat → Option String) → Nat → Option String
  | [], slots => slots
  | i :: rest, slots => runTasks ext markup rest (writeSlot slots i (ext (markup i)))

/-- Assemble the output sequence from the slots in index order; `none`
if any listed slot was never written. -/
def collectSlots (slots : Nat → Option String) : List Nat → Option (List String)
  | [] => some []
  | i :: is =>
    match slots i, collectSlots slots is with
    | some v, some vs => some (v :: vs)
    | _, _ => none

/-- The whole pipeline of lines 102–110: run all tasks of `[0, n)` in
completion order `schedule`, then collect the slots `0, …, n - 1` in
index order. -/
def extractAll (ext : String → String) (markup : Nat → String)
    (n : Nat) (schedule : List Nat) : Option (List String) :=
  collectSlots (runTasks ext markup schedule (fun _ => none)) (List.range n)

/-! ## The progress store (`App::load_progress` / `App::save_progress`,
lines 217–226)

The store is the file `progress.json` holding the `serde_json`
serialization of the `HashMap<String, u16>` progress map.  The
serializer and deserializer below model `serde_json`'s behavior on this
type: objects are written as `{"key":value,...}` with no whitespace;
string keys escape `"` and `\`, use the named escapes `\b \t \n \f \r`,
and `\u00xx` (lowercase hex) for the remaining control characters;
values are decimal `u16` integers.  The deserializer accepts exactly
the object grammar (a `u16` value must fit in `0..65536`, raw control
characters are invalid inside strings, trailing garbage is an error)
and returns `none` on any malformed input, as `serde_json::from_str`
returns `Err`. -/

/-- `'"'` (written via its code point to keep it out of string
literals). -/
def quoteChar : Char := Char.ofNat 34

/-- `'\'` -/
def backslashChar : Char := Char.ofNat 92

/-- `'{'` -/
def lbraceChar : Char := Char.ofNat 123

/-- `'}'` -/
def rbraceChar : Char := Char.ofNat 125

/-- Lowercase hexadecimal digit for `d < 16`, as `serde_json` emits in
`\u00xx` escapes. -/
def hexChar (d : Nat) : Char :=
  if d < 10 then Char.ofNat (48 + d) else Char.ofNat (87 + d)

/-- `serde_json`'s escaping of one character inside a JSON string. -/
def escapeChar (c : Char) : List Char :=
  if c = quoteChar then [backslashChar, quoteChar]
  else if c = backslashChar then [backslashChar, backslashChar]
  else if c.toNat = 8 then [backslashChar, 'b']
  else if c.toNat = 9 then [backslashChar, 't']
  else if c.toNat = 10 then [backslashChar, 'n']
  else if c.toNat = 12 then [backslashChar, 'f']
  else if c.toNat = 13 then [backslashChar, 'r']
  else if c.toNat < 32 then
    [backslashChar, 'u', '0', '0', hexChar (c.toNat / 16), hexChar (c.toNat % 16)]
  else [c]

/-- Escape every character of a string body. -/
def escapeList : List Char → List Char
  | [] => []
  | c :: cs => escapeChar c ++ escapeList cs

/-- A JSON string literal: `"` body `"`. -/
def serializeString (s : String) : List Char :=
  quoteChar :: (escapeList s.data ++ [quoteChar])

/-- One object entry `"key":value`. -/
def serializeEntry (kv : String × Nat) : List Char :=
  serializeString kv.1 ++ ':' :: natToChars kv.2

/-- Comma-separated object entries. -/
def serializeEntries : List (String × Nat) → List Char
  | [] => []
  | [kv] => serializeEntry kv
  | kv :: rest => serializeEntry kv ++ ',' :: serializeEntries rest

/-- The full object serialization `{...}` of the progress map, in map
iteration order. -/
def serializeProgress (m : List (String × Nat)) : List Char :=
  lbraceChar :: (serializeEntries m ++ [rbraceChar])

/-- The file content `App::save_progress` (lines 223–226) writes:
`serde_json::to_string(&self.progress)`. -/
def save_progress (m : List (String × Nat)) : String :=
  String.mk (serializeProgress m)

/-- Value of a hexadecimal digit character (either case). -/
def hexVal (c : Char) : Option Nat :=
  if 48 ≤ c.toNat ∧ c.toNat ≤ 57 then some (c.toNat - 48)
  else if 97 ≤ c.toNat ∧ c.toNat ≤ 102 then some (c.toNat - 87)
  else if 65 ≤ c.toNat ∧ c.toNat ≤ 70 then some (c.toNat - 55)
  else none

/-- The single-character JSON escapes. -/
def unescapeChar (c : Char) : Option Char :=
  if c = quoteChar then some quoteChar
  else if c = backslashChar then some backslashChar
  else if c = '/' then some '/'
  else if c = 'b' then some (Char.ofNat 8)
  else if c = 't' then some (Char.ofNat 9)
  else if c = 'n' then some (Char.ofNat 10)
  else if c = 'f' then some (Char.ofNat 12)
  else if c = 'r' then some (Char.ofNat 13)
  else none

/-- A `\uXXXX` code as a character; lone surrogates are rejected, as
`serde_json` rejects them.  (Surrogate *pairs* do not occur in the
serializer's image, which uses `\u` only for control characters.) -/
def charOfCode (n : Nat) : Option Char :=
  if n < 55296 then some (Char.ofNat n)
  else if 57344 ≤ n ∧ n < 1114112 then some (Char.ofNat n)
  else none

/-- Parse a JSON string body up to and including the closing quote,
returning the decoded characters and the remaining input. -/
def parseStringBody : List Char → Option (List Char × List Char)
  | [] => none
  | c :: rest =>
    if c = quoteChar then some ([], rest)
    else if c = backslashChar then
      match rest with
      | [] => none
      | e :: rest2 =>
        if e = 'u' then
          match rest2 with
          | h1 :: h2 :: h3 :: h4 :: rest3 =>
            match hexVal h1, hexVal h2, hexVal h3, hexVal h4 with
            | some x1, some x2, some x3, some x4 =>
              match charOfCode (((x1 * 16 + x2) * 16 + x3) * 16 + x4) with
              | some ch =>
                match parseStringBody rest3 with
                | some (l, r) => some (ch :: l, r)
                | none => none
              | none => none
            | _, _, _, _ => none
          | _ => none
        else
          match unescapeChar e with
          | some ch =>
            match parseStringBody rest2 with
            | some (l, r) => some (ch :: l, r)
            | none => none
          | none => none
    else if c.toNat < 32 then none
    else
      match parseStringBody rest with
      | some (l, r) => some (c :: l, r)
      | none => none

/-- Consume a maximal run of decimal digits, accumulating their
value. -/
def parseDigits : List Char → Nat → Nat × List Char
  | [], acc => (acc, [])
  | c :: rest, acc =>
    if isDigitChar c then parseDigits rest (acc * 10 + (c.toNat - 48))
    else (acc, c :: rest)

/-- Parse the comma-separated entries of a non-empty object, up to and
including the closing brace.  `fuel` bounds the number of entries; the
caller passes the input length. -/
def parseEntries : Nat → List Char → Option (List (String × Nat) × List Char)
  | 0, _ => none
  | fuel + 1, cs =>
    match cs with
    | [] => none
    | c :: cs1 =>
      if c = quoteChar then
        match parseStringBody cs1 with
        | some (key, cs2) =>
          match cs2 with
          | [] => none
          | colon :: cs3 =>
            if colon = ':' then
              match cs3 with
              | [] => none
              | d :: _ =>
                if isDigitChar d then
                  let p := parseDigits cs3 0
                  if p.1 ≤ 65535 then
                    match p.2 with
                    | [] => none
                    | sep :: cs5 =>
                      if sep = ',' then
                        match parseEntries fuel cs5 with
                        | some (entries, rest) =>
                          some ((String.mk key, p.1) :: entries, rest)
                        | none => none
                      else if sep = rbraceChar then
                        some ([(String.mk key, p.1)], cs5)
                      else none
                  else none
                else none
            else none
        | none => none
      else none

/-- `serde_json::from_str::<HashMap<String, u16>>` on the full input:
a JSON object of string keys and `u16` values with nothing but the
object in the input; `none` on any parse failure. -/
def parseProgress (s : String) : Option (List (String × Nat)) :=
  match s.data with
  | [] => none
  | c :: cs =>
    if c = lbraceChar then
      match cs with
      | [] => none
      | d :: cs2 =>
        if d = rbraceChar then (if cs2 = [] then some [] else none)
        else
          match parseEntries cs.length cs with
          | some (entries, rest) => if rest = [] then some entries else none
          | none => none
    else none

/-- `App::load_progress` (lines 217–221): if `progress.json` can be
read, replace the progress map with the parse result, defaulting to
empty on a parse error (`unwrap_or_default`); if the file cannot be
read, the map is left as it was (`prior`, which is empty at startup
since `App::default` initializes it empty). -/
def load_progress (prior : List (String × Nat)) (file : Option String) :
    List (String × Nat) :=
  match file with
  | some data => (parseProgress data).getD []
  | none => prior

/-- The sequence of observable contents of `progress.json` while
`App::save_progress` (lines 223–226) runs: `fs::write` opens the file
with truncation and then writes the serialized bytes, so a concurrent
reader can observe the previous content, the truncated (empty) file,
and the final content.  (The model collapses partial data writes into
the single truncated state; that one intermediate state is already
observable.) -/
def save_progress_states (m : List (String × Nat)) (old : Option String) :
    List (Option String) :=
  [old, some "", some (save_progress m)]

/-- The input left after a number literal must not start with another
digit (used to state where `parseDigits` stops). -/
def noDigitHead : List Char → Prop
  | [] => True
  | c :: _ => ¬ isDigitChar c

instance : ∀ l : List Char, Decidable (noDigitHead l)
  | [] => .isTrue trivial
  | _ :: _ => instDecidableNot

/-- The reader-session well-formedness invariant tying the `u16`
fields to the extracted content: the current page indexes the content,
the page count is the content length, and the count fits in `u16`. -/
def App.WithinBounds (a : App) : Prop :=
  a.page < a.pages ∧ a.content.length = a.pages ∧ a.pages ≤ 65535

instance (a : App) : Decidable a.WithinBounds := by
  unfold App.WithinBounds; infer_instance

/-- A concrete one-page session state used by the concrete-input
theorems: fresh session on a one-page document, default 238 wpm. -/
def demoApp : App :=
  { content := ["hello world"], text := "hello world", page := 0, pages := 1,
    path := "demo.epub", wpm := 238, exit := false, scroll_offset := 0,
    progress := [], popup_text := none, show_metadata := none,
    metadata := [("title", ["Demo"])] }

/-- `demoApp` scrolled to the maximum representable `u16` offset. -/
def scrollDemoApp : App := { demoApp with scroll_offset := 65535 }

/-- `demoApp` with a page of exactly `n` words and `r` words per
minute. -/
def readingDemoApp (n r : Nat) : App :=
  { demoApp with text := mkWords n, wpm := r }

/-- The progress maps of the save-atomicity scenario: the same document
at page 1 (old store content) and page 2 (being saved). -/
def saveDemoOld : List (String × Nat) := [("a.epub", 1)]

/-- See `saveDemoOld`. -/
def saveDemoNew : List (String × Nat) := [("a.epub", 2)]

/-- A progress map exercising the serializer's escaping (space, quote,
backslash, newline in keys) and the `u16` extremes. -/
def demoProgress : List (String × Nat) :=
  [("a b.epub", 3), (String.mk [quoteChar, backslashChar, Char.ofNat 10], 65535)]

/-! ## Helper lemmas -/

section Lemmas

/-- The digit characters have code `48 + k` and satisfy the digit
test. -/
theorem digitChar_spec (k : Nat) (hk : k < 10) :
    (digitChar k).toNat = 48 + k ∧ isDigitChar (digitChar k) := by
  interval_cases k <;> exact ⟨by decide, by decide⟩

/-- The accumulator of `natToCharsGo` is a suffix of the output. -/
theorem natToCharsGo_append (fuel : Nat) :
    ∀ n acc, natToCharsGo fuel n acc = natToCharsGo fuel n [] ++ acc := by
  induction fuel with
  | zero => intro n acc; rfl
  | succ fuel ih =>
    intro n acc
    by_cases h : n = 0
    · simp [natToCharsGo, h]
    · rw [natToCharsGo, natToCharsGo, if_neg h, if_neg h, ih (n / 10),
        ih (n / 10) [digitChar (n % 10)], List.append_assoc]
      rfl

/-- `natToCharsGo` emits at least one character when `n ≥ 1`. -/
theorem natToCharsGo_ne_nil (fuel n : Nat) (h1 : 1 ≤ n) (h2 : 1 ≤ fuel) :
    natToCharsGo fuel n [] ≠ [] := by
  cases fuel with
  | zero => omega
  | succ fuel =>
    rw [natToCharsGo, if_neg (by omega), natToCharsGo_append]
    simp

/-- Every character `natToCharsGo` emits is a digit. -/
theorem natToCharsGo_digits (fuel : Nat) :
    ∀ n c, c ∈ natToCharsGo fuel n [] → isDigitChar c := by
  induction fuel with
  | zero => intro n c h; simp [natToCharsGo] at h
  | succ fuel ih =>
    intro n c h
    by_cases h0 : n = 0
    · simp [natToCharsGo, h0] at h
    · rw [natToCharsGo, if_neg h0, natToCharsGo_append] at h
      rcases List.mem_append.mp h with h' | h'
      · exact ih _ _ h'
      · have hd := (digitChar_spec (n % 10) (Nat.mod_lt _ (by omega))).2
        have : c = digitChar (n % 10) := by simpa using h'
        exact this ▸ hd

/-- `natToChars` output is nonempty and all digits. -/
theorem natToChars_spec (n : Nat) :
    natToChars n ≠ [] ∧ ∀ c ∈ natToChars n, isDigitChar c := by
  unfold natToChars
  by_cases h : n = 0
  · simp only [h, if_pos rfl]
    exact ⟨by simp, by intro c hc; simp at hc; subst hc; decide⟩
  · rw [if_neg h]
    exact ⟨natToCharsGo_ne_nil n n (by omega) (by omega),
      fun c hc => natToCharsGo_digits n n c hc⟩

theorem parseDigits_stop (rest : List Char) (h : noDigitHead rest) (v : Nat) :
    parseDigits rest v = (v, rest) := by
  cases rest with
  | nil => rfl
  | cons c cs => rw [parseDigits, if_neg h]

/-- Key digit round-trip invariant: parsing the digits `natToCharsGo`
emitted in front of `acc ++ rest` continues into `acc ++ rest` carrying
the reconstructed value `n`. -/
theorem parseDigits_go (fuel : Nat) :
    ∀ n acc rest, n ≤ fuel →
      parseDigits (natToCharsGo fuel n acc ++ rest) 0 =
        parseDigits (acc ++ rest) n := by
  induction fuel with
  | zero => intro n acc rest h; interval_cases n; rfl
  | succ fuel ih =>
    intro n acc rest h
    by_cases h0 : n = 0
    · simp [natToCharsGo, h0]
    · have hdiv : n / 10 ≤ fuel := by
        have := Nat.div_lt_self (by omega : 0 < n) (by omega : 1 < 10)
        omega
      rw [natToCharsGo, if_neg h0, ih (n / 10) (digitChar (n % 10) :: acc) rest hdiv]
      have hd := digitChar_spec (n % 10) (Nat.mod_lt _ (by omega))
      rw [List.cons_append, parseDigits, if_pos hd.2, hd.1]
      congr 1
      omega

/-- Parsing the decimal representation of `n` followed by a non-digit
recovers exactly `n`. -/
theorem parseDigits_natToChars (n : Nat) (rest : List Char)
    (h : noDigitHead rest) :
    parseDigits (natToChars n ++ rest) 0 = (n, rest) := by
  unfold natToChars
  by_cases h0 : n = 0
  · subst h0
    rw [if_pos rfl]
    have : isDigitChar (digitChar 0) := by decide
    simp only [List.cons_append, List.nil_append, parseDigits, if_pos this]
    rw [show (0 * 10 + ((digitChar 0).toNat - 48)) = 0 from by decide,
      show ([] : List Char).append rest = rest from rfl,
      parseDigits_stop rest h]
  · rw [if_neg h0, parseDigits_go n n [] rest (le_refl n), List.nil_append,
      parseDigits_stop rest h]

/-- A text of `n` words has word count `n`. -/
theorem countWords_mkWords (n : Nat) : countWords (mkWords n) = n := by
  suffices h : ∀ m, countWordsGo false (mkWordsChars m) = m from h n
  intro m
  induction m with
  | zero => rfl
  | succ m ih =>
    have ha : ('a').isWhitespace = false := by decide
    have hs : (' ').isWhitespace = true := by decide
    simp [mkWordsChars, countWordsGo, ha, hs, ih]
    omega

/-- After running the tasks of `schedule`, slot `j` holds `j`'s own
result exactly when `j` was scheduled; unscheduled slots are
untouched. -/
theorem runTasks_slots (ext : String → String) (markup : Nat → String) :
    ∀ (schedule : List Nat) (slots : Nat → Option String) (j : Nat),
      runTasks ext markup schedule slots j =
        if j ∈ schedule then some (ext (markup j)) else slots j := by
  intro schedule
  induction schedule with
  | nil => intro slots j; simp [runTasks]
  | cons i rest ih =>
    intro slots j
    rw [runTasks, ih]
    by_cases hr : j ∈ rest
    · simp [hr]
    · by_cases hij : j = i
      · subst hij; simp [hr, writeSlot]
      · simp [hr, hij, writeSlot]

/-- Collecting fully-written slots yields the mapped values. -/
theorem collectSlots_some (slots : Nat → Option String) (f : Nat → String) :
    ∀ (l : List Nat), (∀ i ∈ l, slots i = some (f i)) →
      collectSlots slots l = some (l.map f) := by
  intro l
  induction l with
  | nil => intro _; rfl
  | cons i is ih =>
    intro h
    rw [collectSlots, h i (by simp), ih (fun j hj => h j (by simp [hj]))]
    simp

end Lemmas

section StringRoundTrip

/-- Hex digits round-trip. -/
theorem hexVal_hexChar (d : Nat) (hd : d < 16) : hexVal (hexChar d) = some d := by
  interval_cases d <;> decide

/-- Parsing one escaped character in front of a string body continues
the parse with that character decoded. -/
theorem parseStringBody_cons (c : Char) (tail l r : List Char)
    (h : parseStringBody tail = some (l, r)) :
    parseStringBody (escapeChar c ++ tail) = some (c :: l, r) := by
  by_cases h1 : c = quoteChar
  · subst h1; simp +decide only [escapeChar, List.cons_append, List.nil_append]
    rw [parseStringBody.eq_def]; simp +decide [unescapeChar, h]
  by_cases h2 : c = backslashChar
  · subst h2; simp +decide only [escapeChar, List.cons_append, List.nil_append]
    rw [parseStringBody.eq_def]; simp +decide [unescapeChar, h]
  by_cases h3 : c.toNat = 8
  · have hc : c = Char.ofNat 8 := by rw [← Char.ofNat_toNat c, h3]
    subst hc; simp +decide only [escapeChar, List.cons_append, List.nil_append]
    rw [parseStringBody.eq_def]; simp +decide [unescapeChar, h]
  by_cases h4 : c.toNat = 9
  · have hc : c = Char.ofNat 9 := by rw [← Char.ofNat_toNat c, h4]
    subst hc; simp +decide only [escapeChar, List.cons_append, List.nil_append]
    rw [parseStringBody.eq_def]; simp +decide [unescapeChar, h]
  by_cases h5 : c.toNat = 10
  · have hc : c = Char.ofNat 10 := by rw [← Char.ofNat_toNat c, h5]
    subst hc; simp +decide only [escapeChar, List.cons_append, List.nil_append]
    rw [parseStringBody.eq_def]; simp +decide [unescapeChar, h]
  by_cases h6 : c.toNat = 12
  · have hc : c = Char.ofNat 12 := by rw [← Char.ofNat_toNat c, h6]
    subst hc; simp +decide only [escapeChar, List.cons_append, List.nil_append]
    rw [parseStringBody.eq_def]; simp +decide [unescapeChar, h]
  by_cases h7 : c.toNat = 13
  · have hc : c = Char.ofNat 13 := by rw [← Char.ofNat_toNat c, h7]
    subst hc; simp +decide only [escapeChar, List.cons_append, List.nil_append]
    rw [parseStringBody.eq_def]; simp +decide [unescapeChar, h]
  by_cases h8 : c.toNat < 32
  · have he : escapeChar c =
        [backslashChar, 'u', '0', '0', hexChar (c.toNat / 16), hexChar (c.toNat % 16)] := by
      rw [escapeChar, if_neg h1, if_neg h2, if_neg h3, if_neg h4, if_neg h5,
        if_neg h6, if_neg h7, if_pos h8]
    rw [he]
    have hhi : hexVal (hexChar (c.toNat / 16)) = some (c.toNat / 16) :=
      hexVal_hexChar _ (by omega)
    have hlo : hexVal (hexChar (c.toNat % 16)) = some (c.toNat % 16) :=
      hexVal_hexChar _ (by omega)
    have hcode : ((0 * 16 + 0) * 16 + c.toNat / 16) * 16 + c.toNat % 16 = c.toNat := by
      omega
    have hvalid : charOfCode c.toNat = some (Char.ofNat c.toNat) := by
      rw [charOfCode, if_pos (by omega)]
    have h00 : hexVal '0' = some 0 := by decide
    simp only [List.cons_append, List.nil_append]
    rw [parseStringBody.eq_def]
    have hcode2 : c.toNat / 16 * 16 + c.toNat % 16 = c.toNat := by omega
    simp +decide [h00, hhi, hlo, hcode, hcode2, hvalid, Char.ofNat_toNat, h]
  · have he : escapeChar c = [c] := by
      rw [escapeChar, if_neg h1, if_neg h2, if_neg h3, if_neg h4, if_neg h5,
        if_neg h6, if_neg h7, if_neg h8]
    rw [he]
    simp only [List.cons_append, List.nil_append]
    rw [parseStringBody.eq_def]
    simp [h1, h2, h8, h]

/-- The full string-body round-trip: the serializer's escaping of `l`
followed by the closing quote and `rest` parses back to exactly `l`,
leaving `rest`. -/
theorem parseStringBody_escapeList (l : List Char) :
    ∀ rest, parseStringBody (escapeList l ++ quoteChar :: rest) = some (l, rest) := by
  induction l with
  | nil =>
    intro rest
    rw [escapeList, List.nil_append, parseStringBody.eq_def]
    simp +decide
  | cons c l' ih =>
    intro rest
    rw [escapeList, List.append_assoc]
    exact parseStringBody_cons c _ _ _ (ih rest)

end StringRoundTrip

section ProgressRoundTrip

/-- Serialization emits at least one character per entry (needed to
justify the parser's fuel). -/
theorem serializeEntries_length :
    ∀ m : List (String × Nat), m.length ≤ (serializeEntries m).length := by
  intro m
  induction m with
  | nil => simp [serializeEntries]
  | cons kv m' ih =>
    cases m' with
    | nil => simp [serializeEntries, serializeEntry, serializeString]
    | cons x xs =>
      rw [show serializeEntries (kv :: x :: xs) =
        serializeEntry kv ++ ',' :: serializeEntries (x :: xs) from rfl]
      simp only [List.length_append, List.length_cons]
      simp only [List.length_cons] at ih ⊢
      omega

/-- Parsing a final serialized entry followed by the closing brace. -/
theorem parseEntries_last (f : Nat) (k : String) (v : Nat) (hv : v ≤ 65535) :
    parseEntries (f + 1) (serializeEntry (k, v) ++ [rbraceChar]) =
      some ([(k, v)], []) := by
  have hshape : serializeEntry (k, v) ++ [rbraceChar] =
      quoteChar ::
        (escapeList k.data ++ quoteChar :: (':' :: (natToChars v ++ [rbraceChar]))) := by
    simp [serializeEntry, serializeString]
  obtain ⟨hne, hdig⟩ := natToChars_spec v
  obtain ⟨c0, cr, hx⟩ : ∃ c0 cr, natToChars v = c0 :: cr := by
    cases hxx : natToChars v with
    | nil => exact absurd hxx hne
    | cons c0 cr => exact ⟨c0, cr, rfl⟩
  have hc0 : isDigitChar c0 := hdig c0 (by rw [hx]; simp)
  have hpd : parseDigits (natToChars v ++ [rbraceChar]) 0 = (v, [rbraceChar]) :=
    parseDigits_natToChars v [rbraceChar] (by decide)
  have hk : String.mk k.data = k := rfl
  rw [hx, List.cons_append] at hpd
  rw [hshape, parseEntries.eq_def]
  simp +decide [parseStringBody_escapeList, hx, hc0, hpd, hv, hk]

/-- Parsing a non-final serialized entry followed by a comma dispatches
to the rest of the entries with one unit of fuel consumed. -/
theorem parseEntries_cons (f : Nat) (k : String) (v : Nat) (hv : v ≤ 65535)
    (rest : List Char) :
    parseEntries (f + 1) (serializeEntry (k, v) ++ ',' :: rest) =
      match parseEntries f rest with
      | some (es, r) => some ((k, v) :: es, r)
      | none => none := by
  have hshape : serializeEntry (k, v) ++ ',' :: rest =
      quoteChar ::
        (escapeList k.data ++ quoteChar :: (':' :: (natToChars v ++ ',' :: rest))) := by
    simp [serializeEntry, serializeString]
  obtain ⟨hne, hdig⟩ := natToChars_spec v
  obtain ⟨c0, cr, hx⟩ : ∃ c0 cr, natToChars v = c0 :: cr := by
    cases hxx : natToChars v with
    | nil => exact absurd hxx hne
    | cons c0 cr => exact ⟨c0, cr, rfl⟩
  have hc0 : isDigitChar c0 := hdig c0 (by rw [hx]; simp)
  have hpd : parseDigits (natToChars v ++ ',' :: rest) 0 = (v, ',' :: rest) :=
    parseDigits_natToChars v (',' :: rest)
      (show ¬ isDigitChar ',' from by decide)
  have hk : String.mk k.data = k := rfl
  rw [hx, List.cons_append] at hpd
  rw [hshape, parseEntries.eq_def]
  simp +decide [parseStringBody_escapeList, hx, hc0, hpd, hv, hk]

/-- The serialized entries of a non-empty map parse back to exactly the
map, for any fuel of at least one unit per entry. -/
theorem parseEntries_serialize :
    ∀ (m : List (String × Nat)) (fuel : Nat), m ≠ [] → m.length ≤ fuel →
      (∀ kv ∈ m, kv.2 ≤ 65535) →
      parseEntries fuel (serializeEntries m ++ [rbraceChar]) = some (m, []) := by
  intro m
  induction m with
  | nil => intro fuel h; exact absurd rfl h
  | cons kv m' ih =>
    intro fuel _ hfuel hvals
    cases fuel with
    | zero => simp at hfuel
    | succ f =>
      have hkv : kv.2 ≤ 65535 := hvals kv (by simp)
      cases m' with
      | nil =>
        rw [show serializeEntries [kv] = serializeEntry kv from rfl,
          show kv = (kv.1, kv.2) from rfl, parseEntries_last f kv.1 kv.2 hkv]
      | cons x xs =>
        rw [show serializeEntries (kv :: x :: xs) =
            serializeEntry kv ++ ',' :: serializeEntries (x :: xs) from rfl,
          List.append_assoc, show (',' :: serializeEntries (x :: xs)) ++ [rbraceChar] =
            ',' :: (serializeEntries (x :: xs) ++ [rbraceChar]) from rfl,
          show kv = (kv.1, kv.2) from rfl,
          parseEntries_cons f kv.1 kv.2 hkv _,
          ih f (by simp) (by simp at hfuel ⊢; omega)
            (fun e he => hvals e (by simp [he]))]

/-- Full progress round-trip at the file level: the exact bytes
`App::save_progress` writes parse back (as `App::load_progress` parses
them) to exactly the map that was saved, for any map of `u16` values. -/
theorem parseProgress_save (m : List (String × Nat))
    (hvals : ∀ kv ∈ m, kv.2 ≤ 65535) :
    parseProgress (save_progress m) = some m := by
  cases m with
  | nil => decide
  | cons kv m' =>
    obtain ⟨t, ht⟩ : ∃ t, serializeEntries (kv :: m') = quoteChar :: t := by
      cases m' with
      | nil =>
        refine ⟨escapeList kv.1.data ++ quoteChar :: ':' :: natToChars kv.2, ?_⟩
        rw [show serializeEntries [kv] = serializeEntry kv from rfl,
          show kv = (kv.1, kv.2) from rfl]
        simp [serializeEntry, serializeString]
      | cons x xs =>
        refine ⟨escapeList kv.1.data ++ quoteChar :: ':' ::
          (natToChars kv.2 ++ ',' :: serializeEntries (x :: xs)), ?_⟩
        rw [show serializeEntries (kv :: x :: xs) =
            serializeEntry kv ++ ',' :: serializeEntries (x :: xs) from rfl,
          show kv = (kv.1, kv.2) from rfl]
        simp [serializeEntry, serializeString]
    have hsl := serializeEntries_length (kv :: m')
    have hlen : (kv :: m').length ≤ (serializeEntries (kv :: m') ++ [rbraceChar]).length := by
      rw [List.length_append]
      simp only [List.length_cons, List.length_nil] at hsl ⊢
      omega
    have hcs : parseEntries ((serializeEntries (kv :: m') ++ [rbraceChar]).length)
        (serializeEntries (kv :: m') ++ [rbraceChar]) = some (kv :: m', []) :=
      parseEntries_serialize (kv :: m') _ (by simp) hlen hvals
    have hdata : (save_progress (kv :: m')).data =
        lbraceChar :: (serializeEntries (kv :: m') ++ [rbraceChar]) := rfl
    have hCS : serializeEntries (kv :: m') ++ [rbraceChar] =
        quoteChar :: (t ++ [rbraceChar]) := by rw [ht, List.cons_append]
    rw [hCS] at hcs
    simp only [List.length_cons, List.length_append, List.length_nil] at hcs
    rw [parseProgress.eq_def, hdata, hCS]
    simp +decide [hcs]

end ProgressRoundTrip

/-! ## Claim theorems -/

/-- Bridge: the reading time of a session showing a page of exactly `n`
words at `r` words per minute is the f32 computation on `(n, r)`. -/
theorem calc_reading_time_mkWords (n r : Nat) :
    (readingDemoApp n r).calculate_reading_time = readingTimeFromCount n r := by
  rw [App.calculate_reading_time,
    show (readingDemoApp n r).text = mkWords n from rfl,
    show (readingDemoApp n r).wpm = r from rfl, countWords_mkWords]

/-- C6: for every progress mapping with string keys and `u16` values
(the empty mapping included), saving and then loading yields a mapping
equal to the original: `load_progress` applied to the exact file content
`save_progress` wrote recovers the map. -/
theorem progress_round_trip (m : List (String × Nat)) (prior : List (String × Nat))
    (hvals : ∀ kv ∈ m, kv.2 ≤ 65535) :
    load_progress prior (some (save_progress m)) = m := by
  show (parseProgress (save_progress m)).getD [] = m
  rw [parseProgress_save m hvals]
  rfl

/-- Witness for C6 at a concrete map exercising escaping (space, quote,
backslash, newline) and both `u16` extremes, and at the empty map. -/
theorem progress_round_trip_witness :
    (∀ kv ∈ demoProgress, kv.2 ≤ 65535) ∧
    load_progress [] (some (save_progress demoProgress)) = demoProgress ∧
    load_progress [] (some (save_progress [])) = [] :=
  ⟨by decide, progress_round_trip demoProgress [] (by decide),
    progress_round_trip [] [] (by decide)⟩

/-- C7: `load_progress` never propagates an error: at startup (empty
prior map, per `App::default`) an unreadable `progress.json` leaves the
mapping empty, and a readable but unparsable one yields the empty
mapping via `unwrap_or_default`. -/
theorem load_progress_never_fails (file : Option String) :
    (file = none → load_progress [] file = []) ∧
    (∀ d, file = some d → parseProgress d = none → load_progress [] file = []) := by
  constructor
  · rintro rfl; rfl
  · rintro d rfl hparse
    show (parseProgress d).getD [] = []
    rw [hparse]
    rfl

/-- Witness for C7: a missing file and the malformed content `"oops"`
both load as the empty mapping. -/
theorem load_progress_never_fails_witness :
    load_progress [] none = [] ∧ parseProgress "oops" = none ∧
    load_progress [] (some "oops") = [] :=
  ⟨(load_progress_never_fails none).1 rfl, by decide,
    (load_progress_never_fails (some "oops")).2 "oops" rfl (by decide)⟩

/-- C2 (code bug): pressing `s` (reading-time popup) and then `m`
(metadata popup) from a fresh session leaves BOTH `popup_text` and
`show_metadata` set — `App::show_reading_time` and `App::show_metadata`
each set their own popup without clearing the other, so the two
overlays are not mutually exclusive as the spec requires. -/
theorem both_popups_after_s_then_m :
    ((demoApp.handle_key_event (KeyCode.char 's')).bind
        (fun a => a.handle_key_event (KeyCode.char 'm'))).map
      (fun a => a.popup_text.isSome && a.show_metadata.isSome) = some true := by
  decide

/-- C3 (code bug): with a stale progress record mapping the document
path to page 5 while the re-extracted document has a single page,
`App::run` seeds `page = 5` (line 114) and the seeding read
`content[5]` (line 115) is out of bounds — the code panics instead of
clamping the resumed index into `[0, pageCount)`. -/
theorem stale_progress_seed_out_of_bounds :
    seedPage [("stale.epub", 5)] "stale.epub" = 5 ∧
    seedText ["page0"] (seedPage [("stale.epub", 5)] "stale.epub") = none := by
  decide

/-- C4 (counterexample): `App::save_progress` is not atomic from a
reader's point of view: while saving the new map over the old store
content, the truncated (empty) file is observable, and it equals
neither the old nor the new full serialization. -/
theorem save_not_atomic :
    some "" ∈ save_progress_states saveDemoNew (some (save_progress saveDemoOld)) ∧
    some "" ≠ some (save_progress saveDemoOld) ∧
    some "" ≠ some (save_progress saveDemoNew) := by
  decide

/-- C4 (amended): `save_progress` is a full-replace direct overwrite of
`progress.json` — after it completes the store holds exactly the full
new serialization, and before it starts the store holds the old
content — but it writes in place with a truncating `fs::write` (no
temporary file and rename), so the truncated intermediate state is
observable during the write. -/
theorem save_full_replace (m : List (String × Nat)) (old : Option String) :
    (save_progress_states m old).getLast? = some (some (save_progress m)) ∧
    (save_progress_states m old).head? = some old ∧
    some "" ∈ save_progress_states m old := by
  refine ⟨rfl, rfl, ?_⟩
  simp [save_progress_states]

/-- C5 (counterexample): the claimed exact identity
`readingTimeSeconds = ceil(wordCount / wpm * 60)` fails on the code: on
a page of `2^24 + 1` words at 1 word per minute the f32 computation of
`App::calculate_reading_time` yields 1006632960, while the exact
ceiling is 1006633020 (the word count is not representable in f32). -/
theorem reading_time_f32_deviates :
    (readingDemoApp 16777217 1).calculate_reading_time = 1006632960 ∧
    ceilReadingTime 16777217 1 = 1006633020 ∧
    (readingDemoApp 16777217 1).calculate_reading_time ≠
      ceilReadingTime (countWords (readingDemoApp 16777217 1).text)
        (readingDemoApp 16777217 1).wpm := by
  have h1 : (readingDemoApp 16777217 1).calculate_reading_time =
      readingTimeFromCount 16777217 1 := calc_reading_time_mkWords _ _
  have h2 : countWords (readingDemoApp 16777217 1).text = 16777217 :=
    countWords_mkWords 16777217
  rw [h1, h2, show (readingDemoApp 16777217 1).wpm = 1 from rfl]
  exact ⟨by decide, by decide, by decide⟩

/-- C5 (amended): `App::calculate_reading_time` computes the reading
time in 32-bit float arithmetic —
`(wordCount as f32 / wpm as f32 * 60.0).ceil() as u32` — which agrees
with the exact `ceil(wordCount / wpm * 60)` at the spec's boundary
cases: a page of exactly 238 words at 238 wpm gives 60 seconds, and one
extra word rounds up to 61. -/
theorem reading_time_f32_boundary :
    (readingDemoApp 238 238).calculate_reading_time = 60 ∧
    (readingDemoApp 239 238).calculate_reading_time = 61 ∧
    ceilReadingTime 238 238 = 60 ∧ ceilReadingTime 239 238 = 61 := by
  refine ⟨?_, ?_, by decide, by decide⟩
  · rw [calc_reading_time_mkWords]; decide
  · rw [calc_reading_time_mkWords]; decide

/-- C1: for every document with `pageCount > 0`, the extraction
pipeline produces `some` output of length `pageCount` whose element at
each index `i` is the markup extractor applied to page `i`'s raw
markup — for EVERY completion order of the parallel tasks (every
schedule covering exactly the task indices `[0, n)`), which subsumes
every worker-pool size and interleaving. -/
theorem extraction_deterministic (ext : String → String) (markup : Nat → String)
    (n : Nat) (schedule : List Nat) (hn : 0 < n)
    (hcover : ∀ i < n, i ∈ schedule) (hbound : ∀ j ∈ schedule, j < n) :
    extractAll ext markup n schedule =
      some ((List.range n).map (fun i => ext (markup i))) ∧
    ∀ out, extractAll ext markup n schedule = some out →
      out.length = n ∧ ∀ i, i < n → out[i]? = some (ext (markup i)) := by
  have hslots : ∀ i ∈ List.range n,
      runTasks ext markup schedule (fun _ => none) i = some (ext (markup i)) := by
    intro i hi
    rw [runTasks_slots, if_pos (hcover i (List.mem_range.mp hi))]
  have hmain : extractAll ext markup n schedule =
      some ((List.range n).map (fun i => ext (markup i))) := by
    rw [extractAll]
    exact collectSlots_some _ _ _ hslots
  refine ⟨hmain, ?_⟩
  intro out hout
  rw [hmain] at hout
  obtain rfl : (List.range n).map (fun i => ext (markup i)) = out :=
    Option.some.inj hout
  refine ⟨by simp, ?_⟩
  intro i hi
  rw [List.getElem?_eq_getElem (by simpa using hi)]
  simp

/-- Witness for C1: a three-page document extracted under the
completion order `[2, 0, 1]`. -/
theorem extraction_deterministic_witness :
    (0 < 3) ∧ (∀ i < 3, i ∈ [2, 0, 1]) ∧ (∀ j ∈ [2, 0, 1], j < 3) ∧
    extractAll (fun s => s ++ "!") (fun i => natToString i) 3 [2, 0, 1] =
      some ((List.range 3).map (fun i => natToString i ++ "!")) :=
  ⟨by decide, by decide, by decide,
    (extraction_deterministic (fun s => s ++ "!") (fun i => natToString i) 3
      [2, 0, 1] (by decide) (by decide) (by decide)).1⟩

/-- C8: at the last page, `App::next_page` is a no-op returning the
state unchanged (the whole record, `scroll_offset` included), and at
page 0, `App::previous_page` likewise.  The `u16` bounds make the
wrapped `pages - 1` comparison coincide with the mathematical one. -/
theorem boundary_pages_no_op (a : App) (hpos : 1 ≤ a.pages)
    (hu16 : a.pages ≤ 65535) :
    (a.page = a.pages - 1 → a.next_page = some a) ∧
    (a.page = 0 → a.previous_page = some a) := by
  constructor
  · intro h
    rw [App.next_page, if_neg (show ¬a.page ≠ (a.pages + 65535) % 65536 by omega)]
  · intro h
    rw [App.previous_page, if_neg (show ¬a.page ≠ 0 by omega)]

/-- Witness for C8 on the concrete one-page session, where page 0 is
both the first and the last page. -/
theorem boundary_pages_no_op_witness :
    1 ≤ demoApp.pages ∧ demoApp.pages ≤ 65535 ∧ demoApp.page = demoApp.pages - 1 ∧
    demoApp.next_page = some demoApp ∧ demoApp.previous_page = some demoApp :=
  ⟨by decide, by decide, by decide,
    (boundary_pages_no_op demoApp (by decide) (by decide)).1 (by decide),
    (boundary_pages_no_op demoApp (by decide) (by decide)).2 (by decide)⟩

/-- C9 (counterexample): `App::scroll_down` does NOT increment
`scroll_offset` by exactly 1 for every representable offset: at the
`u16` maximum 65535 the `+= 1` wraps to 0 (release profile; the debug
profile panics), not to 65536. -/
theorem scroll_down_wraps_at_max :
    (scrollDemoApp.scroll_down).scroll_offset = 0 ∧
    (scrollDemoApp.scroll_down).scroll_offset ≠ scrollDemoApp.scroll_offset + 1 := by
  decide

/-- C9 (amended): `App::scroll_up` at offset 0 is a no-op; and
`App::scroll_down` increments the offset by exactly 1 for every offset
strictly below the `u16` maximum 65535, while at 65535 it wraps to 0. -/
theorem scroll_semantics (a : App) :
    (a.scroll_offset = 0 → a.scroll_up = a) ∧
    (a.scroll_offset < 65535 → (a.scroll_down).scroll_offset = a.scroll_offset + 1) ∧
    (a.scroll_offset = 65535 → (a.scroll_down).scroll_offset = 0) := by
  refine ⟨fun h => ?_, fun h => ?_, fun h => ?_⟩
  · rw [App.scroll_up, if_neg (by omega)]
  · show (a.scroll_offset + 1) % 65536 = a.scroll_offset + 1
    omega
  · show (a.scroll_offset + 1) % 65536 = 0
    omega

/-- Witness for C9's amended statement on the concrete session at
offset 0 and on the session at the maximum offset. -/
theorem scroll_semantics_witness :
    demoApp.scroll_up = demoApp ∧
    (demoApp.scroll_down).scroll_offset = demoApp.scroll_offset + 1 ∧
    (scrollDemoApp.scroll_down).scroll_offset = 0 :=
  ⟨(scroll_semantics demoApp).1 (by decide),
    (scroll_semantics demoApp).2.1 (by decide),
    (scroll_semantics scrollDemoApp).2.2 (by decide)⟩

/-- C10: every key-event transition from a well-formed state succeeds
(no panic), preserves the page bound `0 ≤ page < pageCount` together
with the page count and content, and whenever the current page
changes, the displayed text is the content of the new current page. -/
theorem handle_key_event_preserves (a : App) (k : KeyCode) (h : a.WithinBounds) :
    ∃ a', a.handle_key_event k = some a' ∧ a'.WithinBounds ∧
      a'.pages = a.pages ∧ a'.content = a.content ∧
      (a'.page ≠ a.page → a'.content[a'.page]? = some a'.text) := by
  obtain ⟨h1, h2, h3⟩ := h
  cases k with
  | char c =>
    rw [App.handle_key_event]
    split_ifs <;>
      exact ⟨_, rfl, ⟨h1, h2, h3⟩, rfl, rfl, fun hne => absurd rfl hne⟩
  | up =>
    rw [App.handle_key_event, App.scroll_up]
    split_ifs <;>
      exact ⟨_, rfl, ⟨h1, h2, h3⟩, rfl, rfl, fun hne => absurd rfl hne⟩
  | down =>
    exact ⟨_, rfl, ⟨h1, h2, h3⟩, rfl, rfl, fun hne => absurd rfl hne⟩
  | other =>
    exact ⟨_, rfl, ⟨h1, h2, h3⟩, rfl, rfl, fun hne => absurd rfl hne⟩
  | right =>
    rw [App.handle_key_event, App.next_page]
    by_cases hcond : a.page ≠ (a.pages + 65535) % 65536
    · have hne : a.page + 1 < a.pages := by omega
      have hp : (a.page + 1) % 65536 = a.page + 1 := by omega
      have hlt : a.page + 1 < a.content.length := by omega
      rw [if_pos hcond]
      simp only [hp, List.getElem?_eq_getElem hlt]
      exact ⟨_, rfl, ⟨hne, h2, h3⟩, rfl, rfl,
        fun _ => by rw [List.getElem?_eq_getElem hlt]⟩
    · rw [if_neg hcond]
      exact ⟨a, rfl, ⟨h1, h2, h3⟩, rfl, rfl, fun hne => absurd rfl hne⟩
  | left =>
    rw [App.handle_key_event, App.previous_page]
    by_cases hcond : a.page ≠ 0
    · have hne : a.page - 1 < a.pages := by omega
      have hlt : a.page - 1 < a.content.length := by omega
      rw [if_pos hcond]
      simp only [List.getElem?_eq_getElem hlt]
      exact ⟨_, rfl, ⟨hne, h2, h3⟩, rfl, rfl,
        fun _ => by rw [List.getElem?_eq_getElem hlt]⟩
    · rw [if_neg hcond]
      exact ⟨a, rfl, ⟨h1, h2, h3⟩, rfl, rfl, fun hne => absurd rfl hne⟩

/-- Witness for C10: the concrete one-page session is well-formed and
the down-arrow transition satisfies the invariant conclusion. -/
theorem handle_key_event_preserves_witness :
    demoApp.WithinBounds ∧
    ∃ a', demoApp.handle_key_event KeyCode.down = some a' ∧ a'.WithinBounds ∧
      a'.pages = demoApp.pages ∧ a'.content = demoApp.content ∧
      (a'.page ≠ demoApp.page → a'.content[a'.page]? = some a'.text) :=
  ⟨by decide, handle_key_event_preserves demoApp KeyCode.down (by decide)⟩
